import Mathlib

/-!
Shallow embedding of the toy RSA numeric core (`src/lib.rs`) and verification
of its specification.

Conventions:
* `u32`/`u64` values are embedded as `ℕ`; theorems carry explicit width bounds
  (`< 2^32`, `< 2^64`) where the claim depends on them.
* `i64` values are embedded as `ℤ`; the `u64 as i64` bit-reinterpreting cast is
  `u64ToI64`.  Rust `i64` division truncates toward zero, i.e. `Int.tdiv`.
* `while` loops are embedded as fuel-indexed recursions; each definition passes
  a fuel that provably dominates the loop's iteration count, so the embedded
  function is extensionally the source loop.
* A Rust control path that terminates the process (the `error` exit and the
  `unwrap` panics) is embedded as `none`.
-/

set_option maxRecDepth 400000

namespace ToyRSA

/-- Fixed RSA encryption exponent (`EXP` in the source). -/
def EXP : ℕ := 65537

/-- The `u64 as i64` bit-reinterpreting cast used by `mod_inverse`. -/
def u64ToI64 (x : ℕ) : ℤ := if x < 2 ^ 63 then (x : ℤ) else (x : ℤ) - 2 ^ 64

/-- Loop of `modexp`: `while y > 0 { if y % 2 == 1 { z = z*x % m }; y /= 2; x = x*x % m }`.
The loop runs once per bit of `y`, so any fuel `> log2 y` reaches the exit; `modexpVal`
passes `y + 1`.  The source computes in `u128`; for u64 inputs (`x, m < 2^64`) no
intermediate product exceeds `2^128`, so arithmetic over `ℕ` is exact. -/
def modexpLoop : ℕ → ℕ → ℕ → ℕ → ℕ → ℕ
  | 0, z, _, _, _ => z
  | fuel + 1, z, y, x, m =>
    if y = 0 then z
    else modexpLoop fuel (if y % 2 = 1 then z * x % m else z) (y / 2) (x * x % m) m

/-- The value `modexp` computes when `m ≠ 0` (loop started from `z = 1`). -/
def modexpVal (x y m : ℕ) : ℕ := modexpLoop (y + 1) 1 y x m

/-- `modexp(x, y, m)`.  `none` models the fatal `error("m can't be zero")` process
exit taken when `m = 0`.  (The final `z.try_into().unwrap()` to `u64` cannot panic
for u64 inputs: the loop's result is `1` or `< m ≤ 2^64 - 1`.) -/
def modexp (x y m : ℕ) : Option ℕ := if m = 0 then none else some (modexpVal x y m)

/-- Loop of `mod_inverse`'s extended Euclidean algorithm, over exact integers
(Rust `i64`; no i64 operation overflows on the input ranges covered by the
theorems below).  `|newr|` strictly decreases every iteration, so any fuel
`> |newr|` reaches the loop exit; `mod_inverse` passes `|a| + 1`.
Returns the final `(t, r)`. -/
def modInverseLoop : ℕ → ℤ → ℤ → ℤ → ℤ → ℤ × ℤ
  | 0, t, _, r, _ => (t, r)
  | fuel + 1, t, newt, r, newr =>
    if newr = 0 then (t, r)
    else modInverseLoop fuel newt (t - r.tdiv newr * newt) newr (r - r.tdiv newr * newr)

/-- `mod_inverse(a, m)`: converts `a`, `m` to `i64`, rejects `m ≤ 0`, runs the
extended Euclidean loop, rejects a final remainder `> 1`, normalizes a negative
coefficient by adding `m` once, and casts the result back to `u64`
(`t as u64` is `t mod 2^64`). -/
def mod_inverse (a m : ℕ) : Option ℕ :=
  let ai : ℤ := u64ToI64 a
  let mi : ℤ := u64ToI64 m
  if mi ≤ 0 then none
  else
    let tr := modInverseLoop (ai.natAbs + 1) 0 1 mi ai
    if 1 < tr.2 then none
    else some (((if tr.1 < 0 then tr.1 + mi else tr.1) % 2 ^ 64).toNat)

/-- `gcd` from the source: `while b != 0 { temp = b; b = a % b; a = temp }`.
The second argument strictly decreases, so fuel `b + 1` always suffices. -/
def gcdLoop : ℕ → ℕ → ℕ → ℕ
  | 0, a, _ => a
  | fuel + 1, a, b => if b = 0 then a else gcdLoop fuel b (a % b)

/-- `gcd(a, b)` from the source. -/
def gcd (a b : ℕ) : ℕ := gcdLoop (b + 1) a b

/-- The totient `(p - 1) * (q - 1)` computed (as a `u64` product of `u32 - 1`
factors) by `genkey` and `decrypt`.  Exact over `ℕ` for `p, q ≥ 1`. -/
def totient (p q : ℕ) : ℕ := (p - 1) * (q - 1)

/-- One iteration of `genkey`'s loop body on a drawn pair `(p, q)`: `some (p, q)`
if the pair is accepted and returned, `none` if the loop retries (either because
`mod_inverse(EXP, totient)` is absent, or because the final
`EXP < λ && gcd(EXP, λ) == 1` test fails). -/
def genkeyStep (p q : ℕ) : Option (ℕ × ℕ) :=
  match mod_inverse EXP (totient p q) with
  | none => none
  | some _ => if EXP < totient p q ∧ gcd EXP (totient p q) = 1 then some (p, q) else none

/-- `genkey` run against a prime supplier that yields the given finite stream of
draws: returns the first accepted pair.  (The source loop is unbounded; any
returned pair is returned after finitely many draws, i.e. on some finite
prefix of the supplier's stream.) -/
def genkeyFromSupply : List (ℕ × ℕ) → Option (ℕ × ℕ)
  | [] => none
  | (p, q) :: rest =>
    match genkeyStep p q with
    | some pq => some pq
    | none => genkeyFromSupply rest

/-- `encrypt(key, msg) = modexp(msg, EXP, key)`.  (`msg.try_into().unwrap()` from
`u32` to `u64` cannot fail.) -/
def encrypt (key msg : ℕ) : Option ℕ := modexp msg EXP key

/-- `decrypt(key, msg)`: recomputes the totient, recovers `d` with an `unwrap`
(panic modelled as `none`), runs `modexp(msg, d, p*q)`, and narrows the result
to `u32` with `try_into().unwrap()` (panic for values `≥ 2^32` modelled as
`none`). -/
def decryptRun (key : ℕ × ℕ) (msg : ℕ) : Option ℕ :=
  match mod_inverse EXP (totient key.1 key.2) with
  | none => none
  | some d =>
    match modexp msg d (key.1 * key.2) with
    | none => none
    | some v => if v < 2 ^ 32 then some v else none

-- Sanity checks of the embedding on the source's own test vectors.
example : mod_inverse 3 11 = some 4 := by decide
example : mod_inverse 6 9 = none := by decide
example : mod_inverse 7 0 = none := by decide
example : modexp 10 9 6 = some 4 := by decide
example : modexp 450 768 517 = some 34 := by decide
example : gcd 12 18 = 6 := by decide
set_option maxRecDepth 4000 in
example : modexp (18446744073709551557 - 2) (18446744073709551557 - 1) 18446744073709551557 = some 1 := by decide

/-! ### Basic lemmas about the loops -/

theorem modexpLoop_zero_y (fuel z x m : ℕ) : modexpLoop fuel z 0 x m = z := by
  cases fuel <;> simp [modexpLoop]

theorem modexpLoop_spec (fuel : ℕ) : ∀ y : ℕ, y < 2 ^ fuel → ∀ z x m : ℕ, m ≠ 0 → y ≠ 0 →
    modexpLoop fuel z y x m = z * x ^ y % m := by
  induction fuel with
  | zero => intro y hy; omega
  | succ fuel ih =>
    intro y hy z x m hm hy0
    rw [modexpLoop, if_neg hy0]
    by_cases hhalf : y / 2 = 0
    · have hy1 : y = 1 := by omega
      subst hy1
      norm_num
      rw [modexpLoop_zero_y]
    · have h2 : y / 2 < 2 ^ fuel := by
        have h21 : 2 ^ (fuel + 1) = 2 ^ fuel * 2 := by ring
        rw [h21] at hy
        exact Nat.div_lt_of_lt_mul (by omega)
      rw [ih (y / 2) h2 _ _ m hm hhalf]
      by_cases hodd : y % 2 = 1
      · rw [if_pos hodd]
        have hy2 : y = 2 * (y / 2) + 1 := by omega
        have hcong : (z * x % m) * ((x * x % m) ^ (y / 2)) ≡ z * x ^ y [MOD m] := by
          calc (z * x % m) * ((x * x % m) ^ (y / 2))
              ≡ (z * x) * ((x * x) ^ (y / 2)) [MOD m] :=
                Nat.ModEq.mul (Nat.mod_modEq _ _) ((Nat.mod_modEq _ _).pow _)
            _ = z * x ^ y := by
                rw [show x * x = x ^ 2 from (sq x).symm, ← pow_mul]
                conv_rhs => rw [hy2]
                rw [pow_succ]; ring
        exact hcong
      · rw [if_neg hodd]
        have hy2 : y = 2 * (y / 2) := by omega
        have hcong : z * ((x * x % m) ^ (y / 2)) ≡ z * x ^ y [MOD m] := by
          calc z * ((x * x % m) ^ (y / 2))
              ≡ z * ((x * x) ^ (y / 2)) [MOD m] :=
                Nat.ModEq.mul_left _ ((Nat.mod_modEq _ _).pow _)
            _ = z * x ^ y := by
                rw [show x * x = x ^ 2 from (sq x).symm, ← pow_mul]
                conv_rhs => rw [hy2]
        exact hcong

theorem modexpVal_spec (x y m : ℕ) (hm : m ≠ 0) (hy : y ≠ 0) : modexpVal x y m = x ^ y % m := by
  rw [modexpVal,
    modexpLoop_spec (y + 1) y (lt_trans (Nat.lt_succ_self y) (Nat.lt_two_pow (y + 1))) 1 x m hm hy,
    one_mul]

theorem modexpVal_zero (x m : ℕ) : modexpVal x 0 m = 1 := rfl

theorem gcdLoop_eq (fuel : ℕ) : ∀ a b : ℕ, b < fuel → gcdLoop fuel a b = Nat.gcd a b := by
  induction fuel with
  | zero => intro a b hb; omega
  | succ fuel ih =>
    intro a b hb
    rw [gcdLoop]
    by_cases hb0 : b = 0
    · subst hb0; simp
    · rw [if_neg hb0, ih b (a % b) (by have := Nat.mod_lt a (show 0 < b by omega); omega)]
      rw [Nat.gcd_comm b, ← Nat.gcd_rec, Nat.gcd_comm]

theorem gcd_eq (a b : ℕ) : gcd a b = Nat.gcd a b := gcdLoop_eq _ a b (Nat.lt_succ_self b)

/-! ### Extended Euclidean loop: invariants and correctness -/

theorem natAbs_sub_eq (x y : ℤ) (h : x * y ≤ 0) : (x - y).natAbs = x.natAbs + y.natAbs := by
  rcases le_or_lt x 0 with hx | hx <;> rcases le_or_lt y 0 with hy | hy
  · have hxy : x * y = 0 := le_antisymm h (by nlinarith)
    rcases mul_eq_zero.mp hxy with h0 | h0 <;> omega
  · omega
  · omega
  · nlinarith

/-- Invariant-carrying specification of the extended Euclidean loop in the
regime `0 < r`, `0 ≤ newr` (which covers every in-range call): the final
remainder is the gcd of the starting remainders, the final Bézout coefficient
`t` satisfies `t * a ≡ r_final (mod m)`, and its magnitude stays `≤ m`. -/
theorem modInverseLoop_spec (m a : ℤ) (hm : 0 < m) :
    ∀ (fuel : ℕ) (t newt r newr : ℤ),
      newr.natAbs < fuel → 0 < r → 0 ≤ newr →
      Int.ModEq m (t * a) r → Int.ModEq m (newt * a) newr →
      t * newt ≤ 0 →
      (t.natAbs : ℤ) * newr + (newt.natAbs : ℤ) * r = m →
      t.natAbs ≤ m.natAbs →
      (modInverseLoop fuel t newt r newr).2 = (Nat.gcd r.toNat newr.toNat : ℤ) ∧
        Int.ModEq m ((modInverseLoop fuel t newt r newr).1 * a)
          (modInverseLoop fuel t newt r newr).2 ∧
        (modInverseLoop fuel t newt r newr).1.natAbs ≤ m.natAbs := by
  intro fuel
  induction fuel with
  | zero => intro t newt r newr hfuel; omega
  | succ fuel ih =>
    intro t newt r newr hfuel hr hnewr ht hnewt hsign hdet htb
    rw [modInverseLoop]
    by_cases h0 : newr = 0
    · subst h0
      rw [if_pos rfl]
      refine ⟨?_, ht, htb⟩
      simp [Int.toNat_of_nonneg (le_of_lt hr)]
    · rw [if_neg h0]
      have hnewr0 : 0 < newr := lt_of_le_of_ne hnewr (Ne.symm h0)
      set q := r.tdiv newr with hq
      have hnr_tmod : r - q * newr = r.tmod newr := by
        have h1 := Int.tmod_add_tdiv r newr
        rw [hq]; linarith
      have hnr_nonneg : 0 ≤ r - q * newr := hnr_tmod ▸ Int.tmod_nonneg _ (le_of_lt hr)
      have hnr_lt : r - q * newr < newr := hnr_tmod ▸ Int.tmod_lt_of_pos r hnewr0
      have hq_nonneg : 0 ≤ q := Int.tdiv_nonneg (le_of_lt hr) (le_of_lt hnewr0)
      have habs : ((t - q * newt).natAbs : ℤ) = (t.natAbs : ℤ) + q * (newt.natAbs : ℤ) := by
        have hsign2 : t * (q * newt) ≤ 0 := by
          have h1 : t * (q * newt) = q * (t * newt) := by ring
          have h2 : q * (t * newt) ≤ q * 0 := mul_le_mul_of_nonneg_left hsign hq_nonneg
          rw [h1]; linarith
        rw [natAbs_sub_eq t (q * newt) hsign2]
        push_cast [Int.natAbs_mul]
        rw [abs_of_nonneg hq_nonneg]
      obtain ⟨g1, g2, g3⟩ := ih newt (t - q * newt) newr (r - q * newr)
        (by
          have h1 := Int.natAbs_lt_natAbs_of_nonneg_of_lt hnr_nonneg hnr_lt
          omega)
        hnewr0 hnr_nonneg hnewt
        (by
          have h1 : (t - q * newt) * a = t * a - q * (newt * a) := by ring
          rw [h1]
          exact ht.sub (hnewt.mul_left q))
        (by
          have h1 : newt * (t - q * newt) = t * newt - q * (newt * newt) := by ring
          have h2 : 0 ≤ q * (newt * newt) := mul_nonneg hq_nonneg (mul_self_nonneg newt)
          rw [h1]; linarith)
        (by rw [habs]; linear_combination hdet)
        (by
          have hr1 : (1 : ℤ) ≤ r := hr
          have e1 : (0 : ℤ) ≤ (t.natAbs : ℤ) * newr :=
            mul_nonneg (Int.natCast_nonneg _) (le_of_lt hnewr0)
          have e2 : ((newt.natAbs : ℤ)) * 1 ≤ (newt.natAbs : ℤ) * r :=
            mul_le_mul_of_nonneg_left hr1 (Int.natCast_nonneg _)
          have e3 : (newt.natAbs : ℤ) ≤ m := by linarith
          omega)
      refine ⟨?_, g2, g3⟩
      rw [g1]
      have hmod : (r - q * newr).toNat = r.toNat % newr.toNat := by
        have h1 : r - q * newr = r % newr :=
          hnr_tmod.trans (Int.tmod_eq_emod (le_of_lt hr) (le_of_lt hnewr0))
        have h2 : r % newr = ((r.toNat % newr.toNat : ℕ) : ℤ) := by
          rw [Int.natCast_mod, Int.toNat_of_nonneg (le_of_lt hr),
            Int.toNat_of_nonneg (le_of_lt hnewr0)]
        rw [h1, h2, Int.toNat_natCast]
      rw [hmod, Nat.gcd_comm, ← Nat.gcd_rec, Nat.gcd_comm]

theorem u64ToI64_small {x : ℕ} (h : x < 2 ^ 63) : u64ToI64 x = (x : ℤ) := if_pos h

theorem u64ToI64_nonpos_iff {m : ℕ} (hm64 : m < 2 ^ 64) :
    u64ToI64 m ≤ 0 ↔ m = 0 ∨ 2 ^ 63 ≤ m := by
  rw [u64ToI64]; split_ifs with h <;> omega

/-- Result of running the extended Euclidean loop from `mod_inverse`'s initial
state, for in-range inputs `0 < m`, both below `2^63`. -/
theorem modInverseLoop_initial (a m : ℕ) (hm0 : 0 < m) :
    (modInverseLoop ((a : ℤ).natAbs + 1) 0 1 (m : ℤ) (a : ℤ)).2 = (Nat.gcd m a : ℤ) ∧
      Int.ModEq (m : ℤ) ((modInverseLoop ((a : ℤ).natAbs + 1) 0 1 (m : ℤ) (a : ℤ)).1 * (a : ℤ))
        (modInverseLoop ((a : ℤ).natAbs + 1) 0 1 (m : ℤ) (a : ℤ)).2 ∧
      (modInverseLoop ((a : ℤ).natAbs + 1) 0 1 (m : ℤ) (a : ℤ)).1.natAbs ≤ m := by
  have hmz : (0 : ℤ) < (m : ℤ) := by exact_mod_cast hm0
  obtain ⟨g1, g2, g3⟩ := modInverseLoop_spec (m : ℤ) (a : ℤ) hmz ((a : ℤ).natAbs + 1)
    0 1 (m : ℤ) (a : ℤ)
    (Nat.lt_succ_self _)
    hmz
    (Int.natCast_nonneg a)
    (by show (0 * (a : ℤ)) % m = (m : ℤ) % m; simp)
    (by rw [one_mul])
    (by simp)
    (by simp)
    (by simp)
  refine ⟨?_, g2, ?_⟩
  · rw [g1, Int.toNat_natCast, Int.toNat_natCast]
  · simpa using g3

/-- `mod_inverse` success postcondition on the overflow-free domain:
for `a < 2^63`, `1 < m < 2^63` with `gcd(a, m) = 1`, it returns `some x`
with `x < m` and `(a * x) % m = 1`. -/
theorem mod_inverse_spec (a m : ℕ) (ha : a < 2 ^ 63) (hm1 : 1 < m) (hm : m < 2 ^ 63)
    (hg : Nat.gcd a m = 1) :
    ∃ x, mod_inverse a m = some x ∧ x < m ∧ a * x % m = 1 := by
  have hmz : (0 : ℤ) < (m : ℤ) := by exact_mod_cast Nat.lt_of_lt_of_le Nat.zero_lt_one hm1.le
  have hone : ((1 : ℤ) % (m : ℤ)) = 1 :=
    Int.emod_eq_of_lt (by norm_num) (by exact_mod_cast hm1)
  obtain ⟨g1, g2, g3⟩ := modInverseLoop_initial a m (by omega)
  have hgcd1 : (Nat.gcd m a : ℤ) = 1 := by rw [Nat.gcd_comm, hg]; norm_num
  rw [hgcd1] at g1
  rw [g1] at g2
  rw [mod_inverse]
  simp only [u64ToI64_small ha, u64ToI64_small hm]
  rw [if_neg (not_le.mpr hmz), g1, if_neg (by norm_num)]
  set t := (modInverseLoop ((a : ℤ).natAbs + 1) 0 1 (m : ℤ) (a : ℤ)).1 with hT
  -- |t| = m is impossible: it would force 1 ≡ 0 (mod m), contradicting 1 < m
  have htne : t.natAbs ≠ m := by
    intro hEq
    have hdvd : (m : ℤ) ∣ t := by
      rcases Int.natAbs_eq t with h | h
      · rw [h, hEq]
      · rw [h, hEq]; exact dvd_neg.mpr dvd_rfl
    have h0 : Int.ModEq (m : ℤ) 0 1 :=
      (Int.modEq_zero_iff_dvd.mpr (hdvd.mul_right (a : ℤ))).symm.trans g2
    have h1 : (0 : ℤ) % m = 1 % m := h0
    rw [Int.zero_emod, hone] at h1
    norm_num at h1
  have hlt : t.natAbs < m := lt_of_le_of_ne g3 htne
  set x : ℤ := if t < 0 then t + m else t with hx
  have hxb : 0 ≤ x ∧ x < m := by rw [hx]; split_ifs <;> omega
  have hxm : x ≡ t [ZMOD (m : ℤ)] := by
    rw [hx]; split_ifs
    · show (t + (m : ℤ)) % m = t % m
      have h2 : t + (m : ℤ) = t + (m : ℤ) * 1 := by ring
      rw [h2, Int.add_mul_emod_self_left]
    · exact Int.ModEq.refl t
  have hax : (a : ℤ) * x ≡ 1 [ZMOD (m : ℤ)] := by
    have h1 : (a : ℤ) * x ≡ (a : ℤ) * t [ZMOD (m : ℤ)] := hxm.mul_left _
    have h2 : (a : ℤ) * t = t * a := by ring
    rw [h2] at h1
    exact h1.trans g2
  have hemod : x % 2 ^ 64 = x := Int.emod_eq_of_lt hxb.1 (by
    have h3 : (m : ℤ) < 2 ^ 64 := by exact_mod_cast (by omega : m < 2 ^ 64)
    omega)
  refine ⟨x.toNat, ?_, by omega, ?_⟩
  · rw [hemod]
  · have hcast : ((a * x.toNat : ℕ) : ℤ) = (a : ℤ) * x := by
      push_cast [Int.toNat_of_nonneg hxb.1]; ring
    have h1 : ((a * x.toNat : ℕ) : ℤ) % m = 1 % m := by rw [hcast]; exact hax
    rw [hone] at h1
    have h2 : ((a * x.toNat % m : ℕ) : ℤ) = 1 := by rw [Int.natCast_mod]; exact h1
    exact_mod_cast h2

/-- `mod_inverse` returns `none` exactly when `m = 0`, `m ≥ 2^63` (negative as
`i64`), or `gcd(a, m) ≠ 1` — for `a < 2^63` (so `a` survives the `i64` cast). -/
theorem mod_inverse_eq_none_iff (a m : ℕ) (ha : a < 2 ^ 63) (hm64 : m < 2 ^ 64) :
    mod_inverse a m = none ↔ m = 0 ∨ 2 ^ 63 ≤ m ∨ Nat.gcd a m ≠ 1 := by
  by_cases hcast : u64ToI64 m ≤ 0
  · have hr := (u64ToI64_nonpos_iff hm64).mp hcast
    rw [mod_inverse]
    simp only [u64ToI64_small ha]
    rw [if_pos hcast]
    simp only [true_iff]
    tauto
  · have hr := (u64ToI64_nonpos_iff hm64).not.mp hcast
    push_neg at hr
    have hm0 : 0 < m := by omega
    have hm63 : m < 2 ^ 63 := by omega
    obtain ⟨g1, _, _⟩ := modInverseLoop_initial a m hm0
    rw [mod_inverse]
    simp only [u64ToI64_small ha, u64ToI64_small hm63]
    rw [if_neg (by rwa [u64ToI64_small hm63] at hcast), g1]
    have hgpos : 0 < Nat.gcd m a := Nat.gcd_pos_of_pos_left a hm0
    constructor
    · intro h
      split_ifs at h with hcond
      right; right
      rw [Nat.gcd_comm]
      intro hEq
      rw [hEq] at hcond
      norm_num at hcond
    · intro h
      rcases h with h | h | h
      · omega
      · omega
      · rw [Nat.gcd_comm] at h
        have h1 : (1 : ℤ) < (Nat.gcd m a : ℤ) := by exact_mod_cast (by omega : 1 < Nat.gcd m a)
        rw [if_pos h1]

/-! ### Key generation lemmas -/

theorem genkeyStep_some {p q : ℕ} {pr : ℕ × ℕ} (h : genkeyStep p q = some pr) :
    pr = (p, q) ∧ (∃ d, mod_inverse EXP (totient p q) = some d) ∧
      EXP < totient p q ∧ Nat.gcd EXP (totient p q) = 1 := by
  rcases hmi : mod_inverse EXP (totient p q) with _ | d
  · simp only [genkeyStep, hmi] at h
    simp at h
  · simp only [genkeyStep, hmi] at h
    split_ifs at h with hcond
    have h2 := hcond.2
    rw [gcd_eq] at h2
    simp only [Option.some.injEq] at h
    exact ⟨h.symm, ⟨d, rfl⟩, hcond.1, h2⟩

/-- Any pair that passes `genkey`'s `mod_inverse` check has totient `< 2^63`:
a totient of `2^63` or more is negative as `i64` and `mod_inverse` rejects it. -/
theorem genkeyStep_totient_lt {p q : ℕ} (hp : p < 2 ^ 32) (hq : q < 2 ^ 32) {pr : ℕ × ℕ}
    (h : genkeyStep p q = some pr) : totient p q < 2 ^ 63 := by
  obtain ⟨-, ⟨d, hd⟩, -, -⟩ := genkeyStep_some h
  by_contra hge
  push_neg at hge
  have h64 : totient p q < 2 ^ 64 := by
    have h1 := Nat.mul_le_mul (show p - 1 ≤ 2 ^ 32 - 1 by omega) (show q - 1 ≤ 2 ^ 32 - 1 by omega)
    have h2 : totient p q = (p - 1) * (q - 1) := rfl
    omega
  have hnone : mod_inverse EXP (totient p q) = none := by
    simp only [mod_inverse]
    rw [if_pos ((u64ToI64_nonpos_iff h64).mpr (Or.inr hge))]
  rw [hnone] at hd
  simp at hd

theorem genkeyFromSupply_some : ∀ (s : List (ℕ × ℕ)) (pr : ℕ × ℕ),
    genkeyFromSupply s = some pr → ∃ p q, (p, q) ∈ s ∧ genkeyStep p q = some pr := by
  intro s
  induction s with
  | nil => intro pr h; simp [genkeyFromSupply] at h
  | cons hd tl ih =>
    intro pr h
    obtain ⟨p, q⟩ := hd
    rcases hs : genkeyStep p q with _ | pr2
    · simp only [genkeyFromSupply, hs] at h
      obtain ⟨p', q', hmem, hstep⟩ := ih pr h
      exact ⟨p', q', List.mem_cons_of_mem _ hmem, hstep⟩
    · simp only [genkeyFromSupply, hs, Option.some.injEq] at h
      exact ⟨p, q, List.mem_cons_self _ _, by rw [hs, h]⟩

/-! ### RSA number-theoretic core -/

theorem zmod_pow_cycle (p : ℕ) [Fact p.Prime] (a : ZMod p) (j : ℕ) :
    a ^ (j * (p - 1) + 1) = a := by
  induction j with
  | zero => simp
  | succ j ih =>
    have h1 : (j + 1) * (p - 1) + 1 = (j * (p - 1) + 1) + (p - 1) := by ring
    rw [h1, pow_add, ih]
    have h2 : a * a ^ (p - 1) = a ^ (1 + (p - 1)) := by rw [pow_add, pow_one]
    have h3 : 1 + (p - 1) = p := by
      have := (Fact.out : p.Prime).two_le; omega
    rw [h2, h3, ZMod.pow_card]

theorem pow_modEq_self_of_dvd (p k m : ℕ) (hp : p.Prime) (hk : 1 ≤ k)
    (hdvd : (p - 1) ∣ (k - 1)) : Nat.ModEq p (m ^ k) m := by
  haveI := Fact.mk hp
  obtain ⟨j, hj⟩ := hdvd
  have hk2 : k = (p - 1) * j + 1 := by omega
  rw [← ZMod.natCast_eq_natCast_iff]
  push_cast
  rw [hk2, mul_comm]
  exact zmod_pow_cycle p (m : ZMod p) j

/-- RSA round-trip core: for distinct primes `p ≠ q` and an exponent
`k ≡ 1 (mod (p-1)(q-1))`, the map `m ↦ m^k mod pq` fixes every `m < pq`. -/
theorem rsa_core (p q k : ℕ) (hp : p.Prime) (hq : q.Prime) (hne : p ≠ q) (hk : 1 ≤ k)
    (hl : 1 < (p - 1) * (q - 1)) (hmod : k % ((p - 1) * (q - 1)) = 1)
    (m : ℕ) (hm : m < p * q) : m ^ k % (p * q) = m := by
  have h1 : Nat.ModEq ((p - 1) * (q - 1)) 1 k := by
    show 1 % ((p - 1) * (q - 1)) = k % ((p - 1) * (q - 1))
    rw [Nat.mod_eq_of_lt hl, hmod]
  have hdvd : ((p - 1) * (q - 1)) ∣ (k - 1) := (Nat.modEq_iff_dvd' hk).mp h1
  have hdp : (p - 1) ∣ (k - 1) := dvd_trans (dvd_mul_right _ _) hdvd
  have hdq : (q - 1) ∣ (k - 1) := dvd_trans (dvd_mul_left _ _) hdvd
  have hcp : Nat.Coprime p q := (Nat.coprime_primes hp hq).mpr hne
  have e3 : Nat.ModEq (p * q) (m ^ k) m :=
    (Nat.modEq_and_modEq_iff_modEq_mul hcp).mp
      ⟨pow_modEq_self_of_dvd p k m hp hk hdp, pow_modEq_self_of_dvd q k m hq hk hdq⟩
  calc m ^ k % (p * q) = m % (p * q) := e3
    _ = m := Nat.mod_eq_of_lt hm

/-! ### Primality certificates for concrete witnesses

`2147531233` and `2152567873` are primes in `[2^31, 2^32)` whose predecessors
factor over small primes, certified via `lucas_primality` with the power
computations delegated to the (verified) `modexpVal`. -/

theorem zmod_pow_eq_one_iff (a n p : ℕ) (hp1 : 1 < p) (hn : n ≠ 0) :
    ((a : ZMod p) ^ n = 1) ↔ modexpVal a n p = 1 := by
  have h1 : ((a ^ n : ℕ) : ZMod p) = (a : ZMod p) ^ n := by push_cast; ring
  have h2 : ((1 : ℕ) : ZMod p) = 1 := Nat.cast_one
  rw [← h1, ← h2, ZMod.natCast_eq_natCast_iff']
  rw [modexpVal_spec a n p (by omega) hn, Nat.mod_eq_of_lt hp1]

theorem factors_2147531232 : ∀ r : ℕ, r.Prime → r ∣ 2147531232 →
    r = 2 ∨ r = 3 ∨ r = 7 ∨ r = 11 := by
  intro r hr hdvd
  have h : (2147531232 : ℕ) = 2 ^ 5 * (3 * (7 ^ 5 * 11 ^ 3)) := by norm_num
  rw [h] at hdvd
  rcases (Nat.Prime.dvd_mul hr).mp hdvd with h1 | h1
  · exact Or.inl ((Nat.prime_dvd_prime_iff_eq hr Nat.prime_two).mp (hr.dvd_of_dvd_pow h1))
  rcases (Nat.Prime.dvd_mul hr).mp h1 with h2 | h2
  · exact Or.inr (Or.inl ((Nat.prime_dvd_prime_iff_eq hr Nat.prime_three).mp h2))
  rcases (Nat.Prime.dvd_mul hr).mp h2 with h3 | h3
  · exact Or.inr (Or.inr (Or.inl
      ((Nat.prime_dvd_prime_iff_eq hr (by norm_num)).mp (hr.dvd_of_dvd_pow h3))))
  · exact Or.inr (Or.inr (Or.inr
      ((Nat.prime_dvd_prime_iff_eq hr (by norm_num)).mp (hr.dvd_of_dvd_pow h3))))

theorem factors_2152567872 : ∀ r : ℕ, r.Prime → r ∣ 2152567872 →
    r = 2 ∨ r = 3 ∨ r = 7 ∨ r = 13 := by
  intro r hr hdvd
  have h : (2152567872 : ℕ) = 2 ^ 6 * (3 ^ 7 * (7 * 13 ^ 3)) := by norm_num
  rw [h] at hdvd
  rcases (Nat.Prime.dvd_mul hr).mp hdvd with h1 | h1
  · exact Or.inl ((Nat.prime_dvd_prime_iff_eq hr Nat.prime_two).mp (hr.dvd_of_dvd_pow h1))
  rcases (Nat.Prime.dvd_mul hr).mp h1 with h2 | h2
  · exact Or.inr (Or.inl
      ((Nat.prime_dvd_prime_iff_eq hr Nat.prime_three).mp (hr.dvd_of_dvd_pow h2)))
  rcases (Nat.Prime.dvd_mul hr).mp h2 with h3 | h3
  · exact Or.inr (Or.inr (Or.inl ((Nat.prime_dvd_prime_iff_eq hr (by norm_num)).mp h3)))
  · exact Or.inr (Or.inr (Or.inr
      ((Nat.prime_dvd_prime_iff_eq hr (by norm_num)).mp (hr.dvd_of_dvd_pow h3))))

theorem prime_2147531233 : Nat.Prime 2147531233 := by
  apply lucas_primality 2147531233 ((15 : ℕ) : ZMod 2147531233)
  · rw [show (2147531233 - 1 : ℕ) = 2147531232 from rfl,
      zmod_pow_eq_one_iff 15 2147531232 2147531233 (by norm_num) (by norm_num)]
    decide
  · intro r hr hdvd
    rcases factors_2147531232 r hr (by exact_mod_cast hdvd) with h | h | h | h <;> subst h
    · intro hEq
      rw [show ((2147531233 - 1) / 2 : ℕ) = 1073765616 from rfl] at hEq
      exact absurd ((zmod_pow_eq_one_iff 15 1073765616 2147531233 (by norm_num) (by norm_num)).mp hEq)
        (by decide)
    · intro hEq
      rw [show ((2147531233 - 1) / 3 : ℕ) = 715843744 from rfl] at hEq
      exact absurd ((zmod_pow_eq_one_iff 15 715843744 2147531233 (by norm_num) (by norm_num)).mp hEq)
        (by decide)
    · intro hEq
      rw [show ((2147531233 - 1) / 7 : ℕ) = 306790176 from rfl] at hEq
      exact absurd ((zmod_pow_eq_one_iff 15 306790176 2147531233 (by norm_num) (by norm_num)).mp hEq)
        (by decide)
    · intro hEq
      rw [show ((2147531233 - 1) / 11 : ℕ) = 195230112 from rfl] at hEq
      exact absurd ((zmod_pow_eq_one_iff 15 195230112 2147531233 (by norm_num) (by norm_num)).mp hEq)
        (by decide)

theorem prime_2152567873 : Nat.Prime 2152567873 := by
  apply lucas_primality 2152567873 ((10 : ℕ) : ZMod 2152567873)
  · rw [show (2152567873 - 1 : ℕ) = 2152567872 from rfl,
      zmod_pow_eq_one_iff 10 2152567872 2152567873 (by norm_num) (by norm_num)]
    decide
  · intro r hr hdvd
    rcases factors_2152567872 r hr (by exact_mod_cast hdvd) with h | h | h | h <;> subst h
    · intro hEq
      rw [show ((2152567873 - 1) / 2 : ℕ) = 1076283936 from rfl] at hEq
      exact absurd ((zmod_pow_eq_one_iff 10 1076283936 2152567873 (by norm_num) (by norm_num)).mp hEq)
        (by decide)
    · intro hEq
      rw [show ((2152567873 - 1) / 3 : ℕ) = 717522624 from rfl] at hEq
      exact absurd ((zmod_pow_eq_one_iff 10 717522624 2152567873 (by norm_num) (by norm_num)).mp hEq)
        (by decide)
    · intro hEq
      rw [show ((2152567873 - 1) / 7 : ℕ) = 307509696 from rfl] at hEq
      exact absurd ((zmod_pow_eq_one_iff 10 307509696 2152567873 (by norm_num) (by norm_num)).mp hEq)
        (by decide)
    · intro hEq
      rw [show ((2152567873 - 1) / 13 : ℕ) = 165582144 from rfl] at hEq
      exact absurd ((zmod_pow_eq_one_iff 10 165582144 2152567873 (by norm_num) (by norm_num)).mp hEq)
        (by decide)

/-! ### Claim C3: modexp functional correctness -/

/-- C3 counterexample: the claim "for every `m ≠ 0`, `modexp(x, y, m)` equals
`(x^y) mod m`" fails at `x = 5, y = 0, m = 1`: the loop body never runs, so
`modexp` returns its initial accumulator `1`, but `5^0 mod 1 = 0`. -/
theorem modexp_value_counterexample :
    modexp 5 0 1 = some 1 ∧ 5 ^ 0 % 1 = 0 ∧ some (5 ^ 0 % 1) ≠ some 1 := by decide

/-- C3 (amended): for every base `x`, exponent `y`, and modulus `m ≠ 0`,
`modexp(x, y, m)` equals `(x^y) mod m` except in the single corner case
`y = 0 ∧ m = 1`, where it returns `1` instead of `0`; in particular
`modexp(10, 9, 6) = 4`, `modexp(450, 768, 517) = 34`, and
`modexp(x, 0, m) = 1 mod m` for every `m > 1`. -/
theorem modexp_value_correct :
    (∀ x y m : ℕ, m ≠ 0 → (y ≠ 0 ∨ m ≠ 1) → modexp x y m = some (x ^ y % m)) ∧
      (∀ x : ℕ, modexp x 0 1 = some 1) ∧
      modexp 10 9 6 = some 4 ∧ modexp 450 768 517 = some 34 ∧
      (∀ x m : ℕ, 1 < m → modexp x 0 m = some (1 % m)) := by
  refine ⟨?_, ?_, by decide, by decide, ?_⟩
  · intro x y m hm hy
    rw [modexp, if_neg hm]
    rcases Nat.eq_zero_or_pos y with hy0 | hy0
    · subst hy0
      rcases hy with h | h
      · omega
      · rw [modexpVal_zero, pow_zero, Nat.mod_eq_of_lt (by omega)]
    · rw [modexpVal_spec x y m hm (by omega)]
  · intro x
    rw [modexp, if_neg (by omega), modexpVal_zero]
  · intro x m hm
    rw [modexp, if_neg (by omega), modexpVal_zero, Nat.mod_eq_of_lt hm]

/-- Witness for C3's theorem at concrete inputs. -/
theorem modexp_value_correct_witness :
    modexp 7 5 13 = some (7 ^ 5 % 13) ∧ modexp 9 0 7 = some (1 % 7) :=
  ⟨modexp_value_correct.1 7 5 13 (by decide) (Or.inl (by decide)),
   modexp_value_correct.2.2.2.2 9 7 (by decide)⟩

/-! ### Claim C7: modexp range postcondition -/

/-- C7 counterexample: the claim "for every modulus `m ≠ 0` the result is in
`[0, m)`" fails at `y = 0, m = 1`: `modexp(7, 0, 1) = 1`, which is not `< 1`. -/
theorem modexp_range_counterexample :
    modexp 7 0 1 = some 1 ∧ ¬(1 < 1) := by decide

/-- C7 (amended): for every `m ≠ 0`, `modexp` returns a value `v` with `v < m`,
except in the single corner case `y = 0 ∧ m = 1` where `v = 1`; in every case
the value fits the 64-bit input width whenever `m` does (`m < 2^64 → v < 2^64`). -/
theorem modexp_range (x y m : ℕ) (hm : m ≠ 0) :
    ∃ v, modexp x y m = some v ∧ (y ≠ 0 ∨ m ≠ 1 → v < m) ∧ (y = 0 → v = 1) ∧
      (m < 2 ^ 64 → v < 2 ^ 64) := by
  rcases Nat.eq_zero_or_pos y with hy0 | hy0
  · subst hy0
    refine ⟨1, ?_, ?_, fun _ => rfl, fun _ => by norm_num⟩
    · rw [modexp, if_neg hm, modexpVal_zero]
    · rintro (h | h)
      · omega
      · omega
  · refine ⟨x ^ y % m, ?_, fun _ => Nat.mod_lt _ (by omega), fun h => by omega, fun h64 => ?_⟩
    · rw [modexp, if_neg hm, modexpVal_spec x y m hm (by omega)]
    · exact lt_trans (Nat.mod_lt _ (by omega)) h64

/-- Witness for C7's theorem at concrete inputs. -/
theorem modexp_range_witness :
    ∃ v, modexp 450 768 517 = some v ∧ (768 ≠ 0 ∨ 517 ≠ 1 → v < 517) ∧ (768 = 0 → v = 1) ∧
      (517 < 2 ^ 64 → v < 2 ^ 64) :=
  modexp_range 450 768 517 (by decide)

/-! ### Claim C8: zero modulus is fatal -/

/-- C8: calling `modexp` with modulus `0` takes the fatal `error` exit and never
returns a value; for every nonzero modulus that fatal branch is never taken and
a value is returned. -/
theorem modexp_zero_modulus_fatal :
    (∀ x y : ℕ, modexp x y 0 = none) ∧ ∀ x y m : ℕ, m ≠ 0 → modexp x y m ≠ none := by
  constructor
  · intro x y; rw [modexp, if_pos rfl]
  · intro x y m hm; rw [modexp, if_neg hm]; simp

/-- Witness for C8's theorem at concrete inputs. -/
theorem modexp_zero_modulus_fatal_witness :
    modexp 3 4 0 = none ∧ modexp 3 4 5 ≠ none :=
  ⟨modexp_zero_modulus_fatal.1 3 4, modexp_zero_modulus_fatal.2 3 4 5 (by decide)⟩

/-! ### Claim C2: mod_inverse success postcondition -/

/-- C2 counterexample: the claim quantifies over all 64-bit `(a, m)` with
`m > 0` and `gcd(a, m) = 1`, but at `(a, m) = (1, 2^63)` the `u64 → i64` cast
makes `m` negative, so `mod_inverse` returns `none` instead of `some x`. -/
theorem mod_inverse_postcondition_counterexample :
    (0 : ℕ) < 2 ^ 63 ∧ Nat.gcd 1 (2 ^ 63) = 1 ∧ mod_inverse 1 (2 ^ 63) = none := by
  refine ⟨by norm_num, Nat.gcd_one_left _, by decide⟩

/-- C2 (amended): for every `(a, m)` with `a < 2^63`, `1 < m < 2^63` (the range
on which the `i64` reinterpretation is value-preserving and `x < m` can hold)
and `gcd(a, m) = 1`, `mod_inverse(a, m)` returns `some x` with
`(a * x) mod m = 1` and `x ∈ [0, m)`. -/
theorem mod_inverse_postcondition (a m : ℕ) (ha : a < 2 ^ 63) (hm1 : 1 < m)
    (hm : m < 2 ^ 63) (hg : Nat.gcd a m = 1) :
    ∃ x, mod_inverse a m = some x ∧ a * x % m = 1 ∧ x < m := by
  obtain ⟨x, h1, h2, h3⟩ := mod_inverse_spec a m ha hm1 hm hg
  exact ⟨x, h1, h3, h2⟩

/-- Witness for C2's theorem at `(a, m) = (3, 11)`. -/
theorem mod_inverse_postcondition_witness :
    ∃ x, mod_inverse 3 11 = some x ∧ 3 * x % 11 = 1 ∧ x < 11 :=
  mod_inverse_postcondition 3 11 (by norm_num) (by norm_num) (by norm_num) (by decide)

/-! ### Claim C6: mod_inverse absence characterization -/

/-- C6 counterexample: the claim says `none` is returned *only* when `m ≤ 0`
(i.e. `m = 0` for `u64` inputs) or `gcd(a, m) ≠ 1`; but `mod_inverse(3, 2^63)`
is `none` even though `2^63 ≠ 0` and `gcd(3, 2^63) = 1`, because `2^63` is
negative after the `u64 → i64` reinterpretation. -/
theorem mod_inverse_absence_counterexample :
    mod_inverse 3 (2 ^ 63) = none ∧ (2 ^ 63 : ℕ) ≠ 0 ∧ Nat.gcd 3 (2 ^ 63) = 1 := by
  refine ⟨by decide, by norm_num, by decide⟩

/-- C6 (amended): for `a < 2^63` and `m < 2^64`, `mod_inverse(a, m)` returns
`none` exactly when `m = 0`, or `m ≥ 2^63` (nonpositive as `i64`), or
`gcd(a, m) ≠ 1`; in particular `mod_inverse(6, 9) = None`,
`mod_inverse(7, 0) = None`, and `mod_inverse(3, 11) = Some(4)`. -/
theorem mod_inverse_absence :
    (∀ a m : ℕ, a < 2 ^ 63 → m < 2 ^ 64 →
        (mod_inverse a m = none ↔ m = 0 ∨ 2 ^ 63 ≤ m ∨ Nat.gcd a m ≠ 1)) ∧
      mod_inverse 6 9 = none ∧ mod_inverse 7 0 = none ∧ mod_inverse 3 11 = some 4 :=
  ⟨fun a m ha hm => mod_inverse_eq_none_iff a m ha hm, by decide, by decide, by decide⟩

/-- Witness for C6's theorem: both directions of the characterization at
concrete inputs. -/
theorem mod_inverse_absence_witness :
    mod_inverse 6 9 = none ∧ ¬(9 = 0 ∨ 2 ^ 63 ≤ 9 ∨ Nat.gcd 5 9 ≠ 1) :=
  ⟨(mod_inverse_absence.1 6 9 (by norm_num) (by norm_num)).mpr
      (Or.inr (Or.inr (by decide))),
   fun h => by
    have := (mod_inverse_absence.1 5 9 (by norm_num) (by norm_num)).mpr h
    exact absurd this (by decide)⟩

/-! ### Claim C4: genkey postcondition -/

/-- C4: every pair returned by `genkey` (run against a supplier stream meeting
the prime-supplier contract) consists of primes in `[2^31, 2^32)` and satisfies
`EXP < (p-1)(q-1)` and `gcd(EXP, (p-1)(q-1)) = 1`; pairs violating the checks
are never returned — the loop skips them. -/
theorem genkey_postcondition (supply : List (ℕ × ℕ))
    (hc : ∀ pq ∈ supply, Nat.Prime pq.1 ∧ Nat.Prime pq.2 ∧
        2 ^ 31 ≤ pq.1 ∧ pq.1 < 2 ^ 32 ∧ 2 ^ 31 ≤ pq.2 ∧ pq.2 < 2 ^ 32)
    (p q : ℕ) (h : genkeyFromSupply supply = some (p, q)) :
    Nat.Prime p ∧ Nat.Prime q ∧ 2 ^ 31 ≤ p ∧ p < 2 ^ 32 ∧ 2 ^ 31 ≤ q ∧ q < 2 ^ 32 ∧
      EXP < (p - 1) * (q - 1) ∧ Nat.gcd EXP ((p - 1) * (q - 1)) = 1 := by
  obtain ⟨p0, q0, hmem, hstep⟩ := genkeyFromSupply_some supply (p, q) h
  obtain ⟨hpr, -, hlt, hgcd⟩ := genkeyStep_some hstep
  injection hpr with hp' hq'
  subst hp'
  subst hq'
  obtain ⟨hc1, hc2, hc3, hc4, hc5, hc6⟩ := hc (p, q) hmem
  exact ⟨hc1, hc2, hc3, hc4, hc5, hc6, hlt, hgcd⟩

/-- Witness for C4's theorem on a concrete contract-satisfying supplier. -/
theorem genkey_postcondition_witness :
    Nat.Prime 2147531233 ∧ Nat.Prime 2152567873 ∧
      2 ^ 31 ≤ 2147531233 ∧ 2147531233 < 2 ^ 32 ∧
      2 ^ 31 ≤ 2152567873 ∧ 2152567873 < 2 ^ 32 ∧
      EXP < (2147531233 - 1) * (2152567873 - 1) ∧
      Nat.gcd EXP ((2147531233 - 1) * (2152567873 - 1)) = 1 :=
  genkey_postcondition [(2147531233, 2152567873)]
    (by
      intro pq hmem
      simp only [List.mem_singleton] at hmem
      subst hmem
      exact ⟨prime_2147531233, prime_2152567873, by norm_num, by norm_num, by norm_num,
        by norm_num⟩)
    2147531233 2152567873 (by decide)

/-! ### Claim C5: totients of 2^63 and above are unreachable -/

/-- C5: `mod_inverse` (via the `u64 as i64` reinterpretation) returns `none`
for every 64-bit modulus `≥ 2^63`; consequently `genkey`'s loop body discards
any drawn pair whose totient is `2^63` or larger, so every returned key pair
satisfies `(p-1)(q-1) < 2^63`. -/
theorem genkey_totient_bound :
    (∀ a m : ℕ, 2 ^ 63 ≤ m → m < 2 ^ 64 → mod_inverse a m = none) ∧
      (∀ p q : ℕ, p < 2 ^ 32 → q < 2 ^ 32 → ∀ pr : ℕ × ℕ,
        genkeyStep p q = some pr → (p - 1) * (q - 1) < 2 ^ 63) ∧
      ∀ s : List (ℕ × ℕ), (∀ pq ∈ s, pq.1 < 2 ^ 32 ∧ pq.2 < 2 ^ 32) → ∀ p q : ℕ,
        genkeyFromSupply s = some (p, q) → (p - 1) * (q - 1) < 2 ^ 63 := by
  refine ⟨?_, ?_, ?_⟩
  · intro a m hge hlt
    simp only [mod_inverse]
    rw [if_pos ((u64ToI64_nonpos_iff hlt).mpr (Or.inr hge))]
  · intro p q hp hq pr h
    exact genkeyStep_totient_lt hp hq h
  · intro s hs p q h
    obtain ⟨p0, q0, hmem, hstep⟩ := genkeyFromSupply_some s (p, q) h
    obtain ⟨hpr, -, -, -⟩ := genkeyStep_some hstep
    injection hpr with hp' hq'
    subst hp'
    subst hq'
    obtain ⟨h1, h2⟩ := hs (p, q) hmem
    exact genkeyStep_totient_lt h1 h2 hstep

/-- Witness for C5's theorem at concrete inputs. -/
theorem genkey_totient_bound_witness :
    mod_inverse 65537 (2 ^ 63) = none ∧
      (2147531233 - 1) * (2152567873 - 1) < 2 ^ 63 :=
  ⟨genkey_totient_bound.1 65537 (2 ^ 63) (le_refl _) (by norm_num),
   genkey_totient_bound.2.1 2147531233 2152567873 (by norm_num) (by norm_num)
     (2147531233, 2152567873) (by decide)⟩

/-! ### Claim C9: genkey never enforces p ≠ q -/

/-- C9: the acceptance condition of `genkey`'s loop does not depend on `p` and
`q` being distinct: if the prime supplier returns the same in-range prime twice
and the totient checks pass, `genkey` returns the degenerate pair `(p, p)`. -/
theorem genkey_accepts_equal_primes (p : ℕ) (hp : Nat.Prime p) (h1 : 2 ^ 31 ≤ p)
    (h2 : p < 2 ^ 32) (hmi : mod_inverse EXP (totient p p) ≠ none)
    (hlt : EXP < totient p p) (hg : gcd EXP (totient p p) = 1) :
    genkeyFromSupply [(p, p)] = some (p, p) := by
  rcases hval : mod_inverse EXP (totient p p) with _ | d
  · exact absurd hval hmi
  · simp only [genkeyFromSupply, genkeyStep, hval]
    rw [if_pos ⟨hlt, hg⟩]

/-- Witness for C9's theorem: a concrete in-range prime drawn twice whose
degenerate pair passes every check and is returned. -/
theorem genkey_accepts_equal_primes_witness :
    genkeyFromSupply [(2147531233, 2147531233)] = some (2147531233, 2147531233) :=
  genkey_accepts_equal_primes 2147531233 prime_2147531233 (by norm_num) (by norm_num)
    (by decide) (by decide) (by decide)

/-! ### Private exponent facts shared by C1 and C10 -/

/-- For any accepted in-range pair, `decrypt`'s `mod_inverse` call recovers a
`d` with `EXP * d ≡ 1 (mod totient)` and `d < totient`, and the totient
exceeds 1. -/
theorem genkey_private_exponent (p q : ℕ) (hp2 : p < 2 ^ 32) (hq2 : q < 2 ^ 32)
    (hacc : genkeyStep p q = some (p, q)) :
    ∃ d, mod_inverse EXP (totient p q) = some d ∧ EXP * d % totient p q = 1 ∧
      d < totient p q ∧ 1 < totient p q := by
  obtain ⟨-, ⟨d, hd⟩, hlt, hgcd⟩ := genkeyStep_some hacc
  have h63 := genkeyStep_totient_lt hp2 hq2 hacc
  have h1 : 1 < totient p q := lt_trans (by norm_num [EXP]) hlt
  obtain ⟨x, hx1, hx2, hx3⟩ :=
    mod_inverse_spec EXP (totient p q) (by norm_num [EXP]) h1 h63 hgcd
  rw [hd] at hx1
  injection hx1 with hdx
  subst hdx
  exact ⟨d, hd, hx3, hx2, h1⟩

/-- The recovered private exponent is odd (because the totient of two odd
primes is even and `EXP * d ≡ 1` modulo an even number forces `EXP * d` odd). -/
theorem private_exponent_odd (p q d : ℕ) (hp : Nat.Prime p) (hq : Nat.Prime q)
    (hp3 : 2 < p) (hq3 : 2 < q) (hmod : EXP * d % totient p q = 1) : Odd d := by
  have hpodd : Odd p := hp.odd_of_ne_two (by omega)
  have heven : Even (totient p q) := by
    rcases hpodd with ⟨k, hk⟩
    exact Even.mul_right ⟨k, by
      have : p - 1 = 2 * k := by omega
      omega⟩ _
  have h2 : totient p q * (EXP * d / totient p q) + EXP * d % totient p q = EXP * d :=
    Nat.div_add_mod _ _
  rw [hmod] at h2
  have hoddprod : Odd (EXP * d) := by
    set k := EXP * d / totient p q with hk
    rcases heven with ⟨j, hj⟩
    refine ⟨j * k, ?_⟩
    rw [← h2, hj]
    ring
  exact (Nat.odd_mul.mp hoddprod).2

/-- `(n-1)^d mod n = n-1` for odd `d`: the residue `-1` is fixed by odd powers. -/
theorem pow_pred_mod (n d : ℕ) (hn : 1 < n) (hd : Odd d) : (n - 1) ^ d % n = n - 1 := by
  have hM : ((n : ℤ) - 1) ≡ -1 [ZMOD (n : ℤ)] := Int.modEq_iff_dvd.mpr ⟨-1, by ring⟩
  have hMd : ((n : ℤ) - 1) ^ d ≡ (-1 : ℤ) ^ d [ZMOD (n : ℤ)] := hM.pow d
  rw [hd.neg_one_pow] at hMd
  have hfin : ((n : ℤ) - 1) ^ d ≡ ((n : ℤ) - 1) [ZMOD (n : ℤ)] := hMd.trans hM.symm
  have hmeq : Nat.ModEq n ((n - 1) ^ d) (n - 1) := by
    rw [Nat.modEq_iff_dvd]
    have hdvd := hfin.dvd
    push_cast [Nat.cast_sub (show 1 ≤ n by omega)]
    exact hdvd
  calc (n - 1) ^ d % n = (n - 1) % n := hmeq
    _ = n - 1 := Nat.mod_eq_of_lt (by omega)

/-- Unfolding of `decryptRun` once the private exponent is recovered. -/
theorem decryptRun_eval (p q d c : ℕ) (hpq0 : p * q ≠ 0)
    (hd : mod_inverse EXP (totient p q) = some d) :
    decryptRun (p, q) c =
      if modexpVal c d (p * q) < 2 ^ 32 then some (modexpVal c d (p * q)) else none := by
  simp only [decryptRun, hd, modexp, if_neg hpq0]

/-! ### Claim C10: narrowing panic in decrypt -/

/-- C10: `decrypt` converts `modexp(c, d, p*q)` to `u32` with an unwrap, so it
panics exactly when that recovered value is `2^32` or larger and returns
normally exactly when it fits in 32 bits; and for every accepted in-range key
pair (whose modulus necessarily exceeds `2^32`) there is a ciphertext
`c < p * q` — e.g. `c = p*q - 1`, whose odd-power residue is itself — on which
`decrypt` panics even though the key pair is valid. -/
theorem decrypt_narrowing_panic (p q : ℕ) (hp : Nat.Prime p) (hq : Nat.Prime q)
    (hp1 : 2 ^ 31 ≤ p) (hp2 : p < 2 ^ 32) (hq1 : 2 ^ 31 ≤ q) (hq2 : q < 2 ^ 32)
    (hacc : genkeyStep p q = some (p, q)) :
    2 ^ 32 < p * q ∧
      (∃ d, mod_inverse EXP (totient p q) = some d ∧
        (∀ c v, decryptRun (p, q) c = some v ↔ modexpVal c d (p * q) = v ∧ v < 2 ^ 32) ∧
        ∀ c, decryptRun (p, q) c = none ↔ 2 ^ 32 ≤ modexpVal c d (p * q)) ∧
      ∃ c, c < p * q ∧ decryptRun (p, q) c = none := by
  have hpq : 2 ^ 62 ≤ p * q := by
    have h := Nat.mul_le_mul hp1 hq1
    omega
  have hpq0 : p * q ≠ 0 := by omega
  obtain ⟨d, hd, hmod, hdlt, hl1⟩ := genkey_private_exponent p q hp2 hq2 hacc
  have hodd : Odd d := private_exponent_odd p q d hp hq (by omega) (by omega) hmod
  have hd0 : d ≠ 0 := by
    intro h
    rw [h, Nat.mul_zero, Nat.zero_mod] at hmod
    exact absurd hmod (by norm_num)
  refine ⟨by omega, ⟨d, hd, ?_, ?_⟩, ?_⟩
  · intro c v
    rw [decryptRun_eval p q d c hpq0 hd]
    split_ifs with hcond
    · constructor
      · intro h
        injection h with h
        exact ⟨h, h ▸ hcond⟩
      · intro ⟨h1, _⟩
        rw [h1]
    · constructor
      · intro h
        exact absurd h (by simp)
      · intro ⟨h1, h2⟩
        omega
  · intro c
    rw [decryptRun_eval p q d c hpq0 hd]
    split_ifs with hcond
    · constructor
      · intro h
        exact absurd h (by simp)
      · intro h
        omega
    · simp only [true_iff]
      omega
  · refine ⟨p * q - 1, by omega, ?_⟩
    rw [decryptRun_eval p q d _ hpq0 hd]
    have hval : modexpVal (p * q - 1) d (p * q) = p * q - 1 := by
      rw [modexpVal_spec _ _ _ hpq0 hd0]
      exact pow_pred_mod (p * q) d (by omega) hodd
    rw [hval, if_neg (by omega)]

/-- Witness for C10's theorem at a concrete accepted key pair. -/
theorem decrypt_narrowing_panic_witness :
    2 ^ 32 < 2147531233 * 2152567873 ∧
      (∃ d, mod_inverse EXP (totient 2147531233 2152567873) = some d ∧
        (∀ c v, decryptRun (2147531233, 2152567873) c = some v ↔
          modexpVal c d (2147531233 * 2152567873) = v ∧ v < 2 ^ 32) ∧
        ∀ c, decryptRun (2147531233, 2152567873) c = none ↔
          2 ^ 32 ≤ modexpVal c d (2147531233 * 2152567873)) ∧
      ∃ c, c < 2147531233 * 2152567873 ∧ decryptRun (2147531233, 2152567873) c = none :=
  decrypt_narrowing_panic 2147531233 2152567873 prime_2147531233 prime_2152567873
    (by norm_num) (by norm_num) (by norm_num) (by norm_num) (by decide)

/-! ### Claim C1: round-trip correctness -/

/-- C1 counterexample: the round-trip claim fails as stated, because a prime
supplier meeting its contract may return the same in-range prime twice, genkey
then returns the degenerate pair `(p, p)`, and decryption of `encrypt(p*p, 2)`
does not recover `2` (the recovered value is a different residue mod `p^2`, on
which decrypt in fact panics at the `u32` narrowing). -/
theorem roundtrip_fails_for_equal_primes :
    Nat.Prime 2147531233 ∧ 2 ^ 31 ≤ 2147531233 ∧ 2147531233 < 2 ^ 32 ∧
      genkeyFromSupply [(2147531233, 2147531233)] = some (2147531233, 2147531233) ∧
      (2 : ℕ) < 2147531233 * 2147531233 ∧
      (encrypt (2147531233 * 2147531233) 2).bind (decryptRun (2147531233, 2147531233)) ≠
        some 2 :=
  ⟨prime_2147531233, by norm_num, by norm_num, by decide, by norm_num, by decide⟩

/-- C1 (amended): for every key pair returned by `genkey` with `p ≠ q` (given a
prime supplier meeting its contract) and every message `m < 2^32` (the `u32`
message domain, always below `p*q`), `decrypt((p,q), encrypt(p*q, m)) = m`. -/
theorem roundtrip_correct_of_distinct_primes (p q : ℕ) (hp : Nat.Prime p)
    (hq : Nat.Prime q) (hne : p ≠ q)
    (hp1 : 2 ^ 31 ≤ p) (hp2 : p < 2 ^ 32) (hq1 : 2 ^ 31 ≤ q) (hq2 : q < 2 ^ 32)
    (hacc : genkeyStep p q = some (p, q)) (m : ℕ) (hm : m < 2 ^ 32) :
    (encrypt (p * q) m).bind (decryptRun (p, q)) = some m := by
  have hpq : 2 ^ 62 ≤ p * q := by
    have h := Nat.mul_le_mul hp1 hq1
    omega
  have hpq0 : p * q ≠ 0 := by omega
  obtain ⟨d, hd, hmod, hdlt, hl1⟩ := genkey_private_exponent p q hp2 hq2 hacc
  have hd0 : d ≠ 0 := by
    intro h
    rw [h, Nat.mul_zero, Nat.zero_mod] at hmod
    exact absurd hmod (by norm_num)
  have henc : encrypt (p * q) m = some (modexpVal m EXP (p * q)) := by
    rw [encrypt, modexp, if_neg hpq0]
  rw [henc]
  show decryptRun (p, q) (modexpVal m EXP (p * q)) = some m
  rw [decryptRun_eval p q d _ hpq0 hd]
  have hc : modexpVal m EXP (p * q) = m ^ EXP % (p * q) :=
    modexpVal_spec _ _ _ hpq0 (by norm_num [EXP])
  have hv : modexpVal (m ^ EXP % (p * q)) d (p * q) = m ^ (EXP * d) % (p * q) := by
    rw [modexpVal_spec _ _ _ hpq0 hd0, ← Nat.pow_mod, ← pow_mul]
  have hrsa : m ^ (EXP * d) % (p * q) = m :=
    rsa_core p q (EXP * d) hp hq hne
      (Nat.one_le_iff_ne_zero.mpr (mul_ne_zero (by norm_num [EXP]) hd0))
      hl1 hmod m (by omega)
  rw [hc, hv, hrsa, if_pos hm]

/-- Witness for C1's amended theorem at a concrete accepted key pair with
distinct primes and message 42. -/
theorem roundtrip_correct_of_distinct_primes_witness :
    (encrypt (2147531233 * 2152567873) 42).bind (decryptRun (2147531233, 2152567873)) =
      some 42 :=
  roundtrip_correct_of_distinct_primes 2147531233 2152567873 prime_2147531233
    prime_2152567873 (by norm_num) (by norm_num) (by norm_num) (by norm_num) (by norm_num)
    (by decide) 42 (by norm_num)

end ToyRSA
